import Mathlib

/-!
Verification model of the `split-text` library.

Source text and DOM text contents are modelled as `List Char` (sequences of
Unicode scalar values, matching JavaScript's code-point view of strings).
The DOM wrapper elements created by the splitter are modelled by explicit
structures recording the attributes the code sets (`className`,
`data-index`, `style.display`, text content, children).
-/

namespace SplitText

/-! ## JavaScript string primitives

`jsSplit` models `text.split(splitBy)` of ECMAScript for a non-empty string
separator: scan left to right; whenever the separator occurs, cut the
current token and resume after the separator.  Implemented with explicit
fuel (an upper bound on the number of consumed characters) so that the
definition is structurally recursive and computable by the kernel.
-/

def jsSplitFuel (sep : List Char) : Nat → List Char → List (List Char)
  | _, [] => [[]]
  | 0, s => [s]
  | fuel + 1, c :: rest =>
    if sep ≠ [] ∧ (c :: rest).take sep.length = sep then
      [] :: jsSplitFuel sep fuel ((c :: rest).drop sep.length)
    else
      match jsSplitFuel sep fuel rest with
      | [] => [[c]]
      | t :: ts => (c :: t) :: ts

/-- Model of JavaScript `text.split(sep)` for a non-empty separator `sep`. -/
def jsSplit (sep s : List Char) : List (List Char) :=
  jsSplitFuel sep s.length s

theorem jsSplitFuel_fuel_irrel (sep : List Char) :
    ∀ f₁ f₂ s, s.length ≤ f₁ → s.length ≤ f₂ →
      jsSplitFuel sep f₁ s = jsSplitFuel sep f₂ s := by
  intro f₁
  induction f₁ with
  | zero =>
    intro f₂ s h₁ _
    match s with
    | [] => cases f₂ <;> rfl
    | c :: rest => simp at h₁
  | succ f ih =>
    intro f₂ s h₁ h₂
    match s with
    | [] => cases f₂ <;> rfl
    | c :: rest =>
      match f₂ with
      | 0 => simp at h₂
      | f₂' + 1 =>
        simp only [List.length_cons] at h₁ h₂
        simp only [jsSplitFuel]
        by_cases hm : sep ≠ [] ∧ (c :: rest).take sep.length = sep
        · rw [if_pos hm, if_pos hm]
          have hsep : 1 ≤ sep.length := by
            cases sep with
            | nil => exact absurd rfl hm.1
            | cons a l => simp
          have hlen : ((c :: rest).drop sep.length).length ≤ f := by
            simp only [List.length_drop, List.length_cons]
            omega
          have hlen2 : ((c :: rest).drop sep.length).length ≤ f₂' := by
            simp only [List.length_drop, List.length_cons]
            omega
          rw [ih _ _ hlen hlen2]
        · rw [if_neg hm, if_neg hm]
          have hr : rest.length ≤ f := by omega
          have hr2 : rest.length ≤ f₂' := by omega
          rw [ih _ _ hr hr2]

theorem jsSplit_nil (sep : List Char) : jsSplit sep [] = [[]] := rfl

theorem jsSplit_cons_match (sep : List Char) (c : Char) (rest : List Char)
    (hsep : sep ≠ []) (hm : (c :: rest).take sep.length = sep) :
    jsSplit sep (c :: rest) = [] :: jsSplit sep ((c :: rest).drop sep.length) := by
  have hlen1 : 1 ≤ sep.length := by
    cases sep with
    | nil => exact absurd rfl hsep
    | cons a l => simp
  simp only [jsSplit, List.length_cons, jsSplitFuel, if_pos (And.intro hsep hm)]
  congr 1
  apply jsSplitFuel_fuel_irrel
  · simp only [List.length_drop, List.length_cons]; omega
  · exact Nat.le_refl _

theorem jsSplit_cons_nomatch (sep : List Char) (c : Char) (rest : List Char)
    (hm : ¬(sep ≠ [] ∧ (c :: rest).take sep.length = sep)) :
    jsSplit sep (c :: rest) =
      match jsSplit sep rest with
      | [] => [[c]]
      | t :: ts => (c :: t) :: ts := by
  simp only [jsSplit, List.length_cons, jsSplitFuel, if_neg hm]

theorem jsSplit_ne_nil (sep s : List Char) : jsSplit sep s ≠ [] := by
  unfold jsSplit
  generalize hf : s.length = fuel
  clear hf
  induction fuel generalizing s with
  | zero => cases s <;> simp [jsSplitFuel]
  | succ f ih =>
    cases s with
    | nil => simp [jsSplitFuel]
    | cons c rest =>
      simp only [jsSplitFuel]
      by_cases hm : sep ≠ [] ∧ (c :: rest).take sep.length = sep
      · rw [if_pos hm]; simp
      · rw [if_neg hm]
        cases h : jsSplitFuel sep f rest <;> simp

/-- Joining the tokens of `jsSplit` back with the separator between
consecutive tokens reproduces the source exactly. -/
theorem intercalate_jsSplit (sep s : List Char) (hsep : sep ≠ []) :
    List.intercalate sep (jsSplit sep s) = s := by
  have hlen1 : 1 ≤ sep.length := by
    cases sep with
    | nil => exact absurd rfl hsep
    | cons a l => simp
  generalize hn : s.length = n
  induction n using Nat.strong_induction_on generalizing s with
  | _ n ih =>
    cases s with
    | nil => simp [jsSplit_nil, List.intercalate]
    | cons c rest =>
      by_cases hm : (c :: rest).take sep.length = sep
      · rw [jsSplit_cons_match sep c rest hsep hm]
        have hdrop : ((c :: rest).drop sep.length).length < n := by
          simp only [List.length_drop, List.length_cons]
          simp only [List.length_cons] at hn
          omega
        have hih := ih _ (hn ▸ hdrop) ((c :: rest).drop sep.length) rfl
        have hsplit : sep ++ (c :: rest).drop sep.length = c :: rest := by
          conv_rhs => rw [← List.take_append_drop sep.length (c :: rest)]
          rw [hm]
        calc List.intercalate sep ([] :: jsSplit sep ((c :: rest).drop sep.length))
            = sep ++ List.intercalate sep (jsSplit sep ((c :: rest).drop sep.length)) := by
              have hne := jsSplit_ne_nil sep ((c :: rest).drop sep.length)
              cases h : jsSplit sep ((c :: rest).drop sep.length) with
              | nil => exact absurd h hne
              | cons t ts => simp [List.intercalate, List.intersperse]
          _ = sep ++ (c :: rest).drop sep.length := by rw [hih]
          _ = c :: rest := hsplit
      · rw [jsSplit_cons_nomatch sep c rest (by simp [hm])]
        have hrest : rest.length < n := by
          simp only [List.length_cons] at hn
          omega
        have hih := ih _ (hn ▸ hrest) rest rfl
        have hne := jsSplit_ne_nil sep rest
        cases h : jsSplit sep rest with
        | nil => exact absurd h hne
        | cons t ts =>
          rw [h] at hih
          simp only []
          cases ts with
          | nil =>
            simp [List.intercalate, List.intersperse] at hih ⊢
            exact hih
          | cons t₂ ts₂ =>
            simp only [List.intercalate, List.intersperse] at hih ⊢
            simpa [hih] using hih ▸ rfl

/-! ## DOM wrapper model

The splitter creates `<span>` wrappers via `createSpan` (src/src/utils.ts):
a fresh span (whose class attribute is initially empty), with the class set
only when the given class name is truthy (non-empty), an optional
`data-index` attribute, and `display: inline` or `inline-block`.
-/

/-- The attributes `createSpan(className, index, inline)` puts on a fresh
span: `if (className) span.className = className`, an optional
`data-index`, and the display style. -/
structure SpanInit where
  className : String
  index : Option Nat
  display : String
  deriving DecidableEq

def createSpan (className : String) (index : Option Nat) (inline : Bool) : SpanInit :=
  { className := if className = "" then "" else className
    index := index
    display := if inline then "inline" else "inline-block" }

/-- A character-level wrapper: a leaf span holding one piece of text
(a single code point for real character wrappers, the delimiter string for
delimiter wrappers). -/
structure CharSpan where
  className : String
  index : Option Nat
  display : String
  text : List Char
  deriving DecidableEq

/-- A word wrapper: a span holding the word's character wrappers as
children (plus, for a non-space delimiter, a trailing delimiter wrapper). -/
structure WordSpan where
  className : String
  index : Nat
  display : String
  chars : List CharSpan
  deriving DecidableEq

/-- A sibling-level node generic in the word payload: either a word
wrapper or a plain `" "` text node. -/
inductive GNode (α : Type) where
  | word (w : α)
  | space
  deriving DecidableEq

/-- A node of the pass-1 fragment / of a line wrapper's children. -/
abbrev FragNode := GNode WordSpan

/-- A line wrapper: a span holding word wrappers and space text nodes. -/
structure LineSpan where
  className : String
  index : Nat
  display : String
  nodes : List FragNode
  deriving DecidableEq

/-- The `{ chars, words, lines }` result collections. -/
structure SplitElements where
  chars : List CharSpan
  words : List WordSpan
  lines : List LineSpan
  deriving DecidableEq

/-! ## The splitter (src/src/splitter, `splitter(element, options)`) -/

/-- The splitter's per-call configuration after class-name defaulting. -/
structure SplitterCfg where
  splitBy : List Char
  wordClass : String
  lineClass : String
  charClass : String
  inline : Bool
  deriving DecidableEq

/-- `createSpan(charClass, charIndex, inline)` with
`charSpan.textContent = char` for one code point of a word
(JavaScript `Array.from(word)` iterates code points). -/
def mkCharSpan (cfg : SplitterCfg) (ci : Nat) (ch : Char) : CharSpan :=
  let s := createSpan cfg.charClass (some ci) cfg.inline
  ⟨s.className, s.index, s.display, [ch]⟩

/-- The character wrappers of one word token, indexed from `ci` upward
(the loop `for (const [charIndex, char] of Array.from(word).entries())`
starts at 0). -/
def mkCharSpans (cfg : SplitterCfg) : Nat → List Char → List CharSpan
  | _, [] => []
  | ci, ch :: rest => mkCharSpan cfg ci ch :: mkCharSpans cfg (ci + 1) rest

/-- The delimiter wrapper
`createSpan(charClass + "-delimiter", undefined, inline)` with
`delimiterSpan.textContent = splitBy`: delimiter variant class, no index
attribute. -/
def delimiterSpan (cfg : SplitterCfg) : CharSpan :=
  let s := createSpan (cfg.charClass ++ "-delimiter") none cfg.inline
  ⟨s.className, s.index, s.display, cfg.splitBy⟩

/-- The word wrapper for the token at raw split-array position `i` out of
`n` tokens: `createSpan(wordClass, wordIndex, inline)` whose children are
the token's character wrappers, with the delimiter wrapper appended when
`wordIndex < words.length - 1` and the delimiter is not a single space. -/
def mkWordSpan (cfg : SplitterCfg) (n i : Nat) (w : List Char) : WordSpan :=
  let s := createSpan cfg.wordClass (some i) cfg.inline
  let cs := mkCharSpans cfg 0 w
  let cs := if i < n - 1 ∧ cfg.splitBy ≠ [' '] then cs ++ [delimiterSpan cfg] else cs
  ⟨s.className, i, s.display, cs⟩

/-- Accumulated output of the splitter's first pass: the document fragment,
and the `wordElements`, `splitElements.chars` and `spacerElements`
collections. -/
structure BuildOut where
  fragment : List FragNode
  words : List WordSpan
  chars : List CharSpan
  spacers : Nat
  deriving DecidableEq

/-- The splitter's first loop
(`for (let wordIndex = 0; wordIndex < words.length; wordIndex++)`),
processing the tokens from raw index `i` on, out of `n` tokens total:
empty tokens are skipped entirely (`if (!word) continue`); a non-empty
token contributes its word wrapper (with its character wrappers, and for a
non-space delimiter with `wordIndex < words.length - 1` the trailing
delimiter wrapper, which is also pushed onto `chars`) and, for the space
delimiter with `wordIndex < words.length - 1`, a `" "` text node appended
to the fragment after the word and recorded in `spacerElements`. -/
def buildLoop (cfg : SplitterCfg) (n : Nat) : Nat → List (List Char) → BuildOut
  | _, [] => ⟨[], [], [], 0⟩
  | i, w :: ws =>
    let rest := buildLoop cfg n (i + 1) ws
    if w = [] then rest
    else
      let wspan := mkWordSpan cfg n i w
      let hasSpace := i < n - 1 ∧ cfg.splitBy = [' ']
      { fragment := GNode.word wspan ::
          ((if hasSpace then [GNode.space] else []) ++ rest.fragment)
        words := wspan :: rest.words
        chars := wspan.chars ++ rest.chars
        spacers := (if hasSpace then 1 else 0) + rest.spacers }

/-! ### Line grouping (second pass)

`wordData` pairs each word wrapper (in order) with its measured
`offsetTop` and with the space text node that trails it, when any.  The
measurement itself is layout-dependent; it enters the model as an oracle
`tops : Nat → Int` giving the measured offset of the k-th word wrapper.
The grouping is modelled generically over the word payload `α`.
-/

/-- The mutable state of the grouping loop: the collected `lines`, the
`currentLine`, the `currentTop` and the running `lineIndex`. -/
structure GroupState (α : Type) where
  lines : List (List (GNode α) × Nat)
  currentLine : List (GNode α)
  currentTop : Int
  lineIndex : Nat

/-- The nodes one entry of `wordData` contributes to the current line: the
word wrapper, then its trailing space text node when present
(`currentLine.push(element); if (spacer) currentLine.push(spacer)`). -/
def expandEntry (e : α × Int × Bool) : List (GNode α) :=
  GNode.word e.1 :: (if e.2.2 then [GNode.space] else [])

/-- One iteration of the grouping loop: when the word's offset is strictly
greater than `currentTop` and the current line is non-empty, flush the
current line (with the current `lineIndex`, then incremented) and start a
new one at this word's offset; then append the word and its spacer. -/
def groupStep (st : GroupState α) (e : α × Int × Bool) : GroupState α :=
  let st :=
    if st.currentTop < e.2.1 ∧ 0 < st.currentLine.length then
      ⟨st.lines ++ [(st.currentLine, st.lineIndex)], [], e.2.1, st.lineIndex + 1⟩
    else st
  { st with currentLine := st.currentLine ++ expandEntry e }

/-- After the loop, the last line is flushed when non-empty
(`if (currentLine.length > 0) lines.push(...)`). -/
def finishGroups (st : GroupState α) : List (List (GNode α) × Nat) :=
  if 0 < st.currentLine.length then st.lines ++ [(st.currentLine, st.lineIndex)]
  else st.lines

/-- The full grouping of `wordData` into lines;
`currentTop` starts at `wordData[0]?.top ?? 0`. -/
def groupLines (l : List (α × Int × Bool)) : List (List (GNode α) × Nat) :=
  finishGroups (l.foldl groupStep ⟨[], [], ((l.head?.map (fun e => e.2.1)).getD 0), 0⟩)

/-- Declarative line grouping, written from the specification's sentence:
lines partition the measured words in order; a new line group starts
exactly at a word whose offset is strictly greater than the current line's
offset (the offset of the word that started the line) while the current
line already holds at least one word; the first word always starts
line 0.  Each group lists its words (with their trailing-spacer flags)
in order. -/
def specGroups : List (α × Int × Bool) → List (List (α × Int × Bool))
  | [] => []
  | e :: rest =>
    (e :: rest.takeWhile (fun e2 => decide (e2.2.1 ≤ e.2.1))) ::
      specGroups (rest.dropWhile (fun e2 => decide (e2.2.1 ≤ e.2.1)))
termination_by l => l.length
decreasing_by
  simp only [List.length_cons]
  have h := ((List.dropWhile_suffix (l := rest)
    (fun e2 => decide (e2.2.1 ≤ e.2.1))).sublist).length_le
  omega

/-! ### The splitter, assembled -/

/-- Everything observable about one `splitter(element, options)` call:
the returned `{ chars, words, lines }`, the `aria-label` written on the
element, and the element's children after the pass-2 replacement. -/
structure SplitterOut where
  elements : SplitElements
  ariaLabel : List Char
  pass1Children : List FragNode
  finalChildren : List LineSpan
  deriving DecidableEq

/-- Class-name options (`options.classNames` of `SplitTextOptions`); a
missing field falls back to the default class name via `??`. -/
structure ClassNames where
  word : Option String := none
  line : Option String := none
  char : Option String := none
  deriving DecidableEq

/-- `splitter(element, { splitBy, classNames, inline })` on an element
whose captured `textContent` is `text`, with the layout measurement
entering as the oracle `tops` (the `offsetTop` of the k-th word wrapper
after the pass-1 commit). -/
def cfgOf (splitBy : List Char) (classNames : ClassNames) (inline : Bool) : SplitterCfg :=
  ⟨splitBy, classNames.word.getD "split-word", classNames.line.getD "split-line",
    classNames.char.getD "split-char", inline⟩

def splitter (text : List Char) (splitBy : List Char) (classNames : ClassNames)
    (inline : Bool) (tops : Nat → Int) : SplitterOut :=
  let cfg := cfgOf splitBy classNames inline
  let lineClass := cfg.lineClass
  let words := jsSplit splitBy text
  let built := buildLoop cfg words.length 0 words
  let wordData : List (WordSpan × Int × Bool) :=
    (List.range built.words.length).zipWith
      (fun k ws => (ws, tops k, k < built.spacers)) built.words
  let grouped := groupLines wordData
  let lineSpans := grouped.map (fun g =>
    let s := createSpan lineClass (some g.2) cfg.inline
    LineSpan.mk s.className g.2 s.display g.1)
  { elements := ⟨built.chars, built.words, lineSpans⟩
    ariaLabel := text
    pass1Children := built.fragment
    finalChildren := lineSpans }

/-! ## Characterization of the first pass -/

/-- The tokens paired with their raw split-array indices, starting at `i`. -/
def tokensFrom (i : Nat) : List (List Char) → List (Nat × List Char)
  | [] => []
  | w :: ws => (i, w) :: tokensFrom (i + 1) ws

theorem buildLoop_words (cfg : SplitterCfg) (n : Nat) :
    ∀ (i : Nat) (toks : List (List Char)),
      (buildLoop cfg n i toks).words =
        ((tokensFrom i toks).filter (fun p => p.2 ≠ [])).map
          (fun p => mkWordSpan cfg n p.1 p.2) := by
  intro i toks
  induction toks generalizing i with
  | nil => rfl
  | cons w ws ih =>
    by_cases hw : w = []
    · simp [buildLoop, tokensFrom, hw, ih]
    · simp [buildLoop, tokensFrom, hw, ih]

theorem buildLoop_chars (cfg : SplitterCfg) (n : Nat) :
    ∀ (i : Nat) (toks : List (List Char)),
      (buildLoop cfg n i toks).chars =
        ((buildLoop cfg n i toks).words.map (fun ws => ws.chars)).flatten := by
  intro i toks
  induction toks generalizing i with
  | nil => rfl
  | cons w ws ih =>
    by_cases hw : w = []
    · simp [buildLoop, hw, ih]
    · simp [buildLoop, hw, ih]

theorem mkCharSpans_length (cfg : SplitterCfg) :
    ∀ (ci : Nat) (w : List Char), (mkCharSpans cfg ci w).length = w.length := by
  intro ci w
  induction w generalizing ci with
  | nil => rfl
  | cons ch rest ih => simp [mkCharSpans, ih]

theorem mkCharSpans_index_isSome (cfg : SplitterCfg) :
    ∀ (ci : Nat) (w : List Char) (c : CharSpan),
      c ∈ mkCharSpans cfg ci w → c.index.isSome := by
  intro ci w
  induction w generalizing ci with
  | nil => intro c hc; simp [mkCharSpans] at hc
  | cons ch rest ih =>
    intro c hc
    simp only [mkCharSpans, List.mem_cons] at hc
    rcases hc with h | h
    · subst h; rfl
    · exact ih _ c h

theorem mkCharSpans_indexes (cfg : SplitterCfg) :
    ∀ (ci : Nat) (w : List Char),
      (mkCharSpans cfg ci w).map (fun c => c.index) =
        (List.range' ci w.length).map some := by
  intro ci w
  induction w generalizing ci with
  | nil => rfl
  | cons ch rest ih => simp [mkCharSpans, mkCharSpan, createSpan, List.range', ih]

theorem mkCharSpans_texts (cfg : SplitterCfg) :
    ∀ (ci : Nat) (w : List Char),
      ((mkCharSpans cfg ci w).map (fun c => c.text)).flatten = w := by
  intro ci w
  induction w generalizing ci with
  | nil => rfl
  | cons ch rest ih => simp [mkCharSpans, mkCharSpan, ih]

/-- The real (indexed) character wrappers of a word wrapper: every
character wrapper that carries an index attribute — this excludes the
delimiter wrapper, which carries none. -/
def realChars (ws : WordSpan) : List CharSpan :=
  ws.chars.filter (fun c => c.index.isSome)

/-- The visible text of a word wrapper's real character wrappers. -/
def wordText (ws : WordSpan) : List Char :=
  ((realChars ws).map (fun c => c.text)).flatten

theorem delimiterSpan_index (cfg : SplitterCfg) : (delimiterSpan cfg).index = none := rfl

theorem realChars_mkWordSpan (cfg : SplitterCfg) (n i : Nat) (w : List Char) :
    realChars (mkWordSpan cfg n i w) = mkCharSpans cfg 0 w := by
  unfold realChars mkWordSpan
  by_cases h : i < n - 1 ∧ cfg.splitBy ≠ [' ']
  · simp only [if_pos h, List.filter_append]
    rw [List.filter_eq_self.mpr (fun c hc => by
      simpa using mkCharSpans_index_isSome cfg 0 w c hc)]
    simp [delimiterSpan, createSpan]
  · simp only [if_neg h]
    exact List.filter_eq_self.mpr (fun c hc => by
      simpa using mkCharSpans_index_isSome cfg 0 w c hc)

theorem wordText_mkWordSpan (cfg : SplitterCfg) (n i : Nat) (w : List Char) :
    wordText (mkWordSpan cfg n i w) = w := by
  unfold wordText
  rw [realChars_mkWordSpan]
  exact mkCharSpans_texts cfg 0 w

theorem buildLoop_words_filter (cfg : SplitterCfg) (n : Nat) :
    ∀ (toks : List (List Char)) (i j : Nat),
      (buildLoop cfg n i toks).words.filter (fun ws => ws.index = j) =
        if i ≤ j ∧ j - i < toks.length ∧ toks.getD (j - i) [] ≠ [] then
          [mkWordSpan cfg n j (toks.getD (j - i) [])]
        else [] := by
  intro toks
  induction toks with
  | nil =>
    intro i j
    simp [buildLoop]
  | cons w ws ih =>
    intro i j
    by_cases hw : w = []
    · rw [show buildLoop cfg n i (w :: ws) = buildLoop cfg n (i + 1) ws by
        simp [buildLoop, hw]]
      rw [ih (i + 1) j]
      rcases Nat.lt_trichotomy i j with hij | hij | hij
      · have h1 : i + 1 ≤ j := hij
        have h2 : (w :: ws).getD (j - i) [] = ws.getD (j - (i + 1)) [] := by
          have : j - i = (j - (i + 1)) + 1 := by omega
          rw [this]
          rfl
        rw [h2]
        by_cases hc : j - (i + 1) < ws.length ∧ ws.getD (j - (i + 1)) [] ≠ []
        · rw [if_pos ⟨h1, hc.1, hc.2⟩,
            if_pos ⟨by omega, by have := hc.1; simp only [List.length_cons]; omega, hc.2⟩]
        · rw [if_neg (by tauto), if_neg (by
            rintro ⟨-, hlt, hne⟩
            exact hc ⟨by simp at hlt; omega, hne⟩)]
      · subst hij
        rw [if_neg (by omega), if_neg (by
          rintro ⟨-, -, hne⟩
          simp [hw] at hne)]
      · rw [if_neg (by omega), if_neg (by omega)]
    · rw [show buildLoop cfg n i (w :: ws) =
          { fragment := GNode.word (mkWordSpan cfg n i w) ::
              ((if i < n - 1 ∧ cfg.splitBy = [' '] then [GNode.space] else []) ++
                (buildLoop cfg n (i + 1) ws).fragment)
            words := mkWordSpan cfg n i w :: (buildLoop cfg n (i + 1) ws).words
            chars := (mkWordSpan cfg n i w).chars ++ (buildLoop cfg n (i + 1) ws).chars
            spacers := (if i < n - 1 ∧ cfg.splitBy = [' '] then 1 else 0) +
              (buildLoop cfg n (i + 1) ws).spacers } by
        simp [buildLoop, hw]]
      simp only [List.filter_cons]
      rcases Nat.lt_trichotomy i j with hij | hij | hij
      · have hne : ¬ ((mkWordSpan cfg n i w).index = j) := by
          simp [mkWordSpan]; omega
        rw [if_neg (by simpa using hne)]
        rw [ih (i + 1) j]
        have h2 : (w :: ws).getD (j - i) [] = ws.getD (j - (i + 1)) [] := by
          have : j - i = (j - (i + 1)) + 1 := by omega
          rw [this]
          rfl
        rw [h2]
        by_cases hc : j - (i + 1) < ws.length ∧ ws.getD (j - (i + 1)) [] ≠ []
        · rw [if_pos ⟨by omega, hc.1, hc.2⟩,
            if_pos ⟨by omega, by have := hc.1; simp only [List.length_cons]; omega, hc.2⟩]
        · rw [if_neg (by tauto), if_neg (by
            rintro ⟨-, hlt, hne'⟩
            exact hc ⟨by simp at hlt; omega, hne'⟩)]
      · subst hij
        have heq : (mkWordSpan cfg n i w).index = i := rfl
        rw [if_pos (by simp [heq])]
        rw [ih (i + 1) i, if_neg (by omega)]
        have h0 : (w :: ws).getD (i - i) [] = w := by simp
        rw [if_pos ⟨Nat.le_refl i, by simp, by simpa [h0] using hw⟩, h0]
      · have hne : ¬ ((mkWordSpan cfg n i w).index = j) := by
          simp [mkWordSpan]; omega
        rw [if_neg (by simpa using hne)]
        rw [ih (i + 1) j, if_neg (by omega), if_neg (by omega)]

/-! ## C1: round-trip reconstruction -/

/-- The text the splitter placed at raw token position `j`: the
concatenated real character wrapper texts of the word wrapper carrying
index `j` (empty when position `j` held an empty token and thus produced
no word wrapper). -/
def slotText (res : SplitElements) (j : Nat) : List Char :=
  ((res.words.filter (fun ws => ws.index = j)).map wordText).flatten

/-- Reconstruction of the source from a split result: the text contents of
the character wrappers, grouped by word wrapper and placed at each word's
token position, interleaved with the original delimiter occurrences (one
between every two consecutive token positions).  Delimiter-variant
wrappers (the ones carrying no index attribute) are not counted, since the
original delimiter occurrences themselves are interleaved. -/
def reconstruct (res : SplitElements) (sep : List Char) (n : Nat) : List Char :=
  List.intercalate sep ((List.range n).map (slotText res))

theorem splitter_words (text splitBy : List Char) (cn : ClassNames) (inline : Bool)
    (tops : Nat → Int) :
    (splitter text splitBy cn inline tops).elements.words =
      (buildLoop (cfgOf splitBy cn inline) (jsSplit splitBy text).length 0
        (jsSplit splitBy text)).words := rfl

theorem splitter_chars (text splitBy : List Char) (cn : ClassNames) (inline : Bool)
    (tops : Nat → Int) :
    (splitter text splitBy cn inline tops).elements.chars =
      (buildLoop (cfgOf splitBy cn inline) (jsSplit splitBy text).length 0
        (jsSplit splitBy text)).chars := rfl

theorem slotText_splitter (text splitBy : List Char) (cn : ClassNames) (inline : Bool)
    (tops : Nat → Int) (j : Nat) (hj : j < (jsSplit splitBy text).length) :
    slotText (splitter text splitBy cn inline tops).elements j =
      (jsSplit splitBy text).getD j [] := by
  unfold slotText
  rw [splitter_words]
  rw [buildLoop_words_filter]
  by_cases hc : (jsSplit splitBy text).getD j [] ≠ []
  · rw [if_pos ⟨Nat.zero_le j, by simpa using hj, hc⟩]
    simp [wordText_mkWordSpan]
  · rw [if_neg (by
      rintro ⟨-, -, hne⟩
      simp at hc
      exact hne (by simpa using hc))]
    simp at hc
    simp [hc]

/-! ## C6: line grouping refinement -/

/-- Renders the declarative groups as line contents with consecutive
0-based line indices starting at `idx`: each measured word contributes its
wrapper followed by its trailing space text node, inside its own group. -/
def indexGroups (idx : Nat) : List (List (α × Int × Bool)) → List (List (GNode α) × Nat)
  | [] => []
  | g :: gs => ((g.map expandEntry).flatten, idx) :: indexGroups (idx + 1) gs

theorem groupLines_aux (l : List (α × Int × Bool)) :
    ∀ (done : List (List (GNode α) × Nat)) (cur : List (GNode α)) (t : Int) (idx : Nat),
      0 < cur.length →
      finishGroups (l.foldl groupStep ⟨done, cur, t, idx⟩) =
        done ++ ((cur ++ ((l.takeWhile (fun e2 => decide (e2.2.1 ≤ t))).map
            expandEntry).flatten, idx) ::
          indexGroups (idx + 1)
            (specGroups (l.dropWhile (fun e2 => decide (e2.2.1 ≤ t))))) := by
  induction l with
  | nil =>
    intro done cur t idx hcur
    simp [finishGroups, specGroups, indexGroups, Nat.pos_iff_ne_zero.mp hcur,
      List.length_pos.mp hcur]
  | cons e l' ih =>
    intro done cur t idx hcur
    by_cases ht : t < e.2.1
    · have hstep : groupStep ⟨done, cur, t, idx⟩ e =
          ⟨done ++ [(cur, idx)], expandEntry e, e.2.1, idx + 1⟩ := by
        simp [groupStep, ht, hcur]
      rw [List.foldl_cons, hstep,
        ih (done ++ [(cur, idx)]) (expandEntry e) e.2.1 (idx + 1) (by simp [expandEntry])]
      have hp : (fun e2 : α × Int × Bool => decide (e2.2.1 ≤ t)) e = false := by
        simp; omega
      rw [List.takeWhile_cons, List.dropWhile_cons]
      simp only [hp, Bool.false_eq_true, if_false]
      rw [show specGroups (e :: l') =
          (e :: l'.takeWhile (fun e2 => decide (e2.2.1 ≤ e.2.1))) ::
            specGroups (l'.dropWhile (fun e2 => decide (e2.2.1 ≤ e.2.1))) from by
        rw [specGroups]]
      simp [indexGroups]
    · have hstep : groupStep ⟨done, cur, t, idx⟩ e =
          ⟨done, cur ++ expandEntry e, t, idx⟩ := by
        simp [groupStep, ht]
      rw [List.foldl_cons, hstep, ih done (cur ++ expandEntry e) t idx (by simp [hcur])]
      have hp : (fun e2 : α × Int × Bool => decide (e2.2.1 ≤ t)) e = true := by
        simp; omega
      rw [List.takeWhile_cons, List.dropWhile_cons]
      simp only [hp, if_true]
      simp

/-- Claim C6: for every sequence of measured (word wrapper, vertical
offset, trailing-spacer) triples in document order, the splitter's line
grouping (`groupLines`, the faithful rendering of the grouping loop)
coincides with the declarative grouping `specGroups`: a new line group
starts exactly at a word whose offset is strictly greater than the offset
of the word that started the current line while that line already holds at
least one word; the first word always starts line 0 regardless of its
offset; and each word's trailing plain-space text node is placed inside
that word's own line group (`expandEntry`), never the next line's; line
indices run 0, 1, 2, … in order. -/
theorem groupLines_eq_indexGroups (l : List (α × Int × Bool)) :
    groupLines l = indexGroups 0 (specGroups l) := by
  cases l with
  | nil => simp [groupLines, finishGroups, specGroups, indexGroups]
  | cons e l' =>
    unfold groupLines
    have hhead : ((((e :: l').head?).map (fun e => e.2.1)).getD 0) = e.2.1 := rfl
    rw [hhead, List.foldl_cons]
    have hstep : groupStep ⟨[], [], e.2.1, 0⟩ e = ⟨[], expandEntry e, e.2.1, 0⟩ := by
      simp [groupStep]
    rw [hstep, groupLines_aux l' [] (expandEntry e) e.2.1 0 (by simp [expandEntry])]
    rw [show specGroups (e :: l') =
        (e :: l'.takeWhile (fun e2 => decide (e2.2.1 ≤ e.2.1))) ::
          specGroups (l'.dropWhile (fun e2 => decide (e2.2.1 ≤ e.2.1))) from by
      rw [specGroups]]
    simp [indexGroups]

/-! ## DOM tree model, leaf search (src/src/utils.ts `findTextElements`)
and the recursive mode of `splitText` -/

/-- A DOM node: a text node, or an element with an ordered child list. -/
inductive DomNode where
  | text (s : List Char)
  | elem (children : List DomNode)

mutual

/-- `element.textContent`: the concatenated text of all descendants. -/
def DomNode.textContent : DomNode → List Char
  | .text s => s
  | .elem cs => textContentList cs

def textContentList : List DomNode → List Char
  | [] => []
  | n :: ns => n.textContent ++ textContentList ns

end

def isTextNode : DomNode → Bool
  | .text _ => true
  | .elem _ => false

/-- `isTextOnlyElement`: every direct child node is a text node. -/
def isTextOnlyElement (children : List DomNode) : Bool :=
  children.all isTextNode

/-- JavaScript `String.prototype.trim`: strip leading and trailing
whitespace. -/
def jsTrim (s : List Char) : List Char :=
  ((s.dropWhile Char.isWhitespace).reverse.dropWhile Char.isWhitespace).reverse

/-- The qualifying test of `findTextElements`'s `traverse`:
`isTextOnlyElement(element) && element.textContent?.trim()` (a trimmed
empty string is falsy). -/
def isTextLeaf (cs : List DomNode) : Bool :=
  isTextOnlyElement cs && !(jsTrim (textContentList cs)).isEmpty

mutual

/-- `findTextElements(container, filter)`: collect, in depth-first order,
every descendant element (the container included) whose children are all
text nodes and whose trimmed text is non-empty; such a leaf is kept only
when the filter accepts it, and is never descended past; a non-leaf
element is not collected but its element children are traversed. -/
def findTextElements (fil : DomNode → Bool) : DomNode → List DomNode
  | .text _ => []
  | .elem cs =>
    if isTextLeaf cs then
      if fil (.elem cs) then [DomNode.elem cs] else []
    else findTextElementsList fil cs

def findTextElementsList (fil : DomNode → Bool) : List DomNode → List DomNode
  | [] => []
  | n :: ns => findTextElements fil n ++ findTextElementsList fil ns

end

mutual

/-- The in-place mutation of the recursive mode, as a pure tree transform:
each qualifying leaf accepted by the filter is replaced by `f` applied to
it; everything else is left in place (rejected leaves are not descended
past, matching `findTextElements`). -/
def applyToLeaves (fil : DomNode → Bool) (f : DomNode → DomNode) : DomNode → DomNode
  | .text s => .text s
  | .elem cs =>
    if isTextLeaf cs then
      if fil (.elem cs) then f (.elem cs) else .elem cs
    else .elem (applyToLeavesList fil f cs)

def applyToLeavesList (fil : DomNode → Bool) (f : DomNode → DomNode) :
    List DomNode → List DomNode
  | [] => []
  | n :: ns => applyToLeaves fil f n :: applyToLeavesList fil f ns

end

/-- Rendering of a character wrapper back into the DOM tree model. -/
def renderChar (c : CharSpan) : DomNode := .elem [.text c.text]

def renderFrag : FragNode → DomNode
  | .word ws => .elem (ws.chars.map renderChar)
  | .space => .text [' ']

def renderLine (l : LineSpan) : DomNode := .elem (l.nodes.map renderFrag)

/-- The splitter's effect on one leaf element: its children are replaced
by the line wrappers of pass 2. -/
def splitLeaf (splitBy : List Char) (cn : ClassNames) (inline : Bool)
    (tops : DomNode → Nat → Int) (leaf : DomNode) : DomNode :=
  .elem (((splitter leaf.textContent splitBy cn inline (tops leaf)).finalChildren).map
    renderLine)

/-- The `aggregatedResults` accumulation of the recursive mode: per-leaf
`chars`, `words` and `lines` concatenated in leaf-encounter order. -/
def aggregateResults (rs : List SplitElements) : SplitElements :=
  ⟨(rs.map (fun r => r.chars)).flatten,
   (rs.map (fun r => r.words)).flatten,
   (rs.map (fun r => r.lines)).flatten⟩

/-- The recursive mode of `splitText`: find the qualifying text leaves,
split each, aggregate the results, and mutate exactly the found leaves.
The pass-through of `options.filter` into `findTextElements` is modelled
from the spec: the spec's entry point forwards the user predicate to the
leaf search when `recursive` is true (the `splitText` variant wiring
`options.filter` through is not under src/; `findTextElements` itself,
with its filter parameter, is src/src/utils.ts). -/
def splitTextRecursive (container : DomNode) (fil : DomNode → Bool)
    (splitBy : List Char) (cn : ClassNames) (inline : Bool)
    (tops : DomNode → Nat → Int) : SplitElements × DomNode :=
  let leaves := findTextElements fil container
  (aggregateResults (leaves.map (fun leaf =>
      (splitter leaf.textContent splitBy cn inline (tops leaf)).elements)),
   applyToLeaves fil (splitLeaf splitBy cn inline tops) container)

mutual

theorem findTextElements_false : ∀ (n : DomNode),
    findTextElements (fun _ => false) n = []
  | .text _ => by rw [findTextElements]
  | .elem cs => by
    rw [findTextElements]
    by_cases h : isTextLeaf cs
    · simp [h]
    · simp [h, findTextElementsList_false cs]

theorem findTextElementsList_false : ∀ (ns : List DomNode),
    findTextElementsList (fun _ => false) ns = []
  | [] => by rw [findTextElementsList]
  | n :: ns => by
    rw [findTextElementsList, findTextElements_false n, findTextElementsList_false ns]
    rfl

end

mutual

theorem applyToLeaves_false (f : DomNode → DomNode) : ∀ (n : DomNode),
    applyToLeaves (fun _ => false) f n = n
  | .text _ => by rw [applyToLeaves]
  | .elem cs => by
    rw [applyToLeaves]
    by_cases h : isTextLeaf cs
    · simp [h]
    · simp [h, applyToLeavesList_false f cs]

theorem applyToLeavesList_false (f : DomNode → DomNode) : ∀ (ns : List DomNode),
    applyToLeavesList (fun _ => false) f ns = ns
  | [] => by rw [applyToLeavesList]
  | n :: ns => by
    rw [applyToLeavesList, applyToLeaves_false f n, applyToLeavesList_false f ns]

end

/-! ## Element resolution (src/src/utils.ts `resolveElements`) and the
entry point's element-not-found signal -/

/-- A resolution target: a live element handle, an ordered collection, or
a selector string. -/
inductive ElementOrSelector (ε : Type) where
  | element (e : ε)
  | elements (es : List ε)
  | selector (s : String)

/-- `resolveElements(elementOrSelector)`: a live element gives a
one-element list; a selector string queries the document (or scope/cache),
materialized with `Array.from`; a collection is materialized as is. -/
def resolveElements (target : ElementOrSelector ε) (query : String → List ε) : List ε :=
  match target with
  | .element e => [e]
  | .elements es => es
  | .selector s => query s

/-- The non-recursive entry point
`splitText(elementOrSelector, options)`: destructure the first resolved
element; when there is none, throw `Error("Element not found")` before
touching any DOM; otherwise run the splitter on that element. -/
def splitText (target : ElementOrSelector ε) (query : String → List ε)
    (textOf : ε → List Char) (splitBy : List Char) (cn : ClassNames)
    (inline : Bool) (tops : Nat → Int) : Except String SplitterOut :=
  match resolveElements target query with
  | [] => .error "Element not found"
  | e :: _ => .ok (splitter (textOf e) splitBy cn inline tops)

/-! ## Claim theorems -/

/-- Claim C1: for every source text and every (non-empty) delimiter,
concatenating the text contents of the character wrappers produced by the
splitter — grouped by word wrapper, each group at its word's token
position — interleaved with the original delimiter occurrences (one
between every two consecutive token positions) reproduces the original
source text exactly, in particular for inputs with consecutive, leading or
trailing delimiter occurrences (whose empty tokens produce no wrappers and
contribute nothing to the concatenation). -/
theorem splitter_roundtrip (text splitBy : List Char) (cn : ClassNames)
    (inline : Bool) (tops : Nat → Int) (hsep : splitBy ≠ []) :
    reconstruct (splitter text splitBy cn inline tops).elements splitBy
      (jsSplit splitBy text).length = text := by
  unfold reconstruct
  have hmap : (List.range (jsSplit splitBy text).length).map
      (slotText (splitter text splitBy cn inline tops).elements) =
      jsSplit splitBy text := by
    apply List.ext_getElem
    · simp
    · intro k h1 h2
      simp only [List.getElem_map, List.getElem_range]
      rw [slotText_splitter text splitBy cn inline tops k (by simpa using h2)]
      exact List.getD_eq_getElem _ _ (by simpa using h2)
  rw [hmap]
  exact intercalate_jsSplit splitBy text hsep

theorem splitter_roundtrip_witness :
    (([','] : List Char) ≠ []) ∧
      reconstruct (splitter ['a', ',', ',', 'b'] [','] {} false
          (fun _ => 0)).elements [','] (jsSplit [','] ['a', ',', ',', 'b']).length =
        ['a', ',', ',', 'b'] :=
  ⟨by decide, splitter_roundtrip ['a', ',', ',', 'b'] [','] {} false (fun _ => 0)
    (by decide)⟩

/-- Claim C2: for every container element, recursive mode with a filter
predicate that rejects every element finds no leaf, returns a result whose
chars, words and lines are all empty, and performs no DOM mutation on the
container: the tree transform of the recursive mode leaves the container's
descendant structure unchanged. -/
theorem recursive_rejecting_filter_empty (container : DomNode)
    (splitBy : List Char) (cn : ClassNames) (inline : Bool)
    (tops : DomNode → Nat → Int) :
    findTextElements (fun _ => false) container = [] ∧
      (splitTextRecursive container (fun _ => false) splitBy cn inline tops).1 =
        ⟨[], [], []⟩ ∧
      (splitTextRecursive container (fun _ => false) splitBy cn inline tops).2 =
        container := by
  refine ⟨findTextElements_false container, ?_, ?_⟩
  · unfold splitTextRecursive
    rw [findTextElements_false container]
    rfl
  · unfold splitTextRecursive
    exact applyToLeaves_false _ container

/-- Claim C5: whenever target resolution yields no element, the
non-recursive entry point signals the distinct "Element not found"
condition to the caller instead of running the splitter — the result is
the error value, produced before any splitter call and hence before any
DOM mutation, never a silent no-op. -/
theorem splitText_element_not_found {ε : Type} (target : ElementOrSelector ε)
    (query : String → List ε) (textOf : ε → List Char) (splitBy : List Char)
    (cn : ClassNames) (inline : Bool) (tops : Nat → Int)
    (hres : resolveElements target query = []) :
    splitText target query textOf splitBy cn inline tops =
      Except.error "Element not found" := by
  unfold splitText
  rw [hres]

theorem splitText_element_not_found_witness :
    resolveElements (ElementOrSelector.selector (ε := Unit) "#missing")
        (fun _ => []) = [] ∧
      splitText (ElementOrSelector.selector (ε := Unit) "#missing") (fun _ => [])
        (fun _ => []) [' '] {} false (fun _ => 0) =
        Except.error "Element not found" :=
  ⟨rfl, splitText_element_not_found (ElementOrSelector.selector "#missing")
    (fun _ => []) (fun _ => []) [' '] {} false (fun _ => 0) rfl⟩

/-- Claim C8: for every element whose captured text content is empty (and
any delimiter and options), the splitter returns empty chars, words and
lines, and leaves the element cleared: its final children contain zero
line wrappers (zero tokens produce zero lines, never one empty line). -/
theorem splitter_empty_text (splitBy : List Char) (cn : ClassNames)
    (inline : Bool) (tops : Nat → Int) :
    (splitter [] splitBy cn inline tops).elements = ⟨[], [], []⟩ ∧
      (splitter [] splitBy cn inline tops).finalChildren = [] := by
  constructor <;> rfl

/-- Claim C3 counterexample: on source `"a␣␣b"` with the space delimiter
the split array is `["a", "", "b"]`; the second word wrapper in document
order carries index 2 (its raw position in the split array), not 1 as the
claim's "counting only the non-empty tokens before it" requires. -/
theorem word_index_counterexample :
    ((splitter ['a', ' ', ' ', 'b'] [' '] {} false (fun _ => 0)).elements.words.map
        (fun ws => ws.index)) = [0, 2] ∧ ([0, 2] : List Nat) ≠ [0, 1] := by
  decide

/-- Claim C3 (amended): each word wrapper carries as its index attribute
the raw 0-based position of its token in the full split array — counting
empty tokens produced by consecutive, leading or trailing delimiters as
well — and each character wrapper inside a word carries a 0-based index
that resets to 0 for each word. -/
theorem word_char_indexes (text splitBy : List Char) (cn : ClassNames)
    (inline : Bool) (tops : Nat → Int) :
    ((splitter text splitBy cn inline tops).elements.words.map (fun ws => ws.index) =
      ((tokensFrom 0 (jsSplit splitBy text)).filter (fun p => p.2 ≠ [])).map
        (fun p => p.1)) ∧
    (∀ ws ∈ (splitter text splitBy cn inline tops).elements.words,
      (realChars ws).map (fun c => c.index) =
        (List.range (realChars ws).length).map some) := by
  constructor
  · rw [splitter_words, buildLoop_words, List.map_map]
    rfl
  · intro ws hws
    rw [splitter_words, buildLoop_words] at hws
    simp only [List.mem_map, List.mem_filter] at hws
    obtain ⟨p, ⟨hp, hpne⟩, rfl⟩ := hws
    rw [realChars_mkWordSpan, mkCharSpans_indexes, mkCharSpans_length,
      List.range_eq_range']

theorem word_char_indexes_witness :
    mkWordSpan (cfgOf [' '] {} false) 3 2 ['b'] ∈
        (splitter ['a', ' ', ' ', 'b'] [' '] {} false (fun _ => 0)).elements.words ∧
      (realChars (mkWordSpan (cfgOf [' '] {} false) 3 2 ['b'])).map (fun c => c.index) =
        (List.range (realChars (mkWordSpan (cfgOf [' '] {} false) 3 2 ['b'])).length).map
          some :=
  ⟨by decide,
    (word_char_indexes ['a', ' ', ' ', 'b'] [' '] {} false (fun _ => 0)).2 _ (by decide)⟩

/-! ## C4: graphemes vs code points -/

/-- Modelled from the spec: a combining accent mark (Unicode combining
diacritical marks, U+0300–U+036F — the spec's "combining accents"
example) does not count as a user-perceived character of its own but
attaches to the preceding base character. -/
def isCombiningMark (c : Char) : Bool :=
  0x300 ≤ c.toNat && c.toNat ≤ 0x36F

/-- Modelled from the spec: the number of user-perceived characters
(graphemes) of a piece of text — combining accents attach to their base
character, so only non-combining code points are counted. -/
def specGraphemeCount (s : List Char) : Nat :=
  (s.filter (fun c => !isCombiningMark c)).length

/-- Claim C4 counterexample: on the source `"e" + U+0301` (a combining
acute accent: one user-perceived character `é`) the splitter creates two
character wrappers — `Array.from(word)` iterates code points, not
graphemes — while the grapheme count is 1. -/
theorem grapheme_counterexample :
    (splitter ['e', Char.ofNat 0x301] [' '] {} false
        (fun _ => 0)).elements.chars.length = 2 ∧
      specGraphemeCount ['e', Char.ofNat 0x301] = 1 ∧ (2 : Nat) ≠ 1 := by
  decide

theorem buildLoop_chars_space (cfg : SplitterCfg) (hsp : cfg.splitBy = [' ']) (n : Nat) :
    ∀ (i : Nat) (toks : List (List Char)),
      (buildLoop cfg n i toks).chars.length = (toks.map List.length).sum := by
  intro i toks
  induction toks generalizing i with
  | nil => rfl
  | cons w ws ih =>
    by_cases hw : w = []
    · simp [buildLoop, hw, ih]
    · have hchars : (mkWordSpan cfg n i w).chars = mkCharSpans cfg 0 w := by
        simp [mkWordSpan, hsp]
      simp [buildLoop, hw, ih, hchars, mkCharSpans_length]

theorem mkCharSpans_text_len (cfg : SplitterCfg) :
    ∀ (ci : Nat) (w : List Char) (c : CharSpan),
      c ∈ mkCharSpans cfg ci w → c.text.length = 1 := by
  intro ci w
  induction w generalizing ci with
  | nil => intro c hc; simp [mkCharSpans] at hc
  | cons ch rest ih =>
    intro c hc
    simp only [mkCharSpans, List.mem_cons] at hc
    rcases hc with h | h
    · subst h; rfl
    · exact ih _ c h

/-- Claim C4 (amended): the splitter creates exactly one character wrapper
per Unicode code point of each word token (JavaScript `Array.from(word)`
iteration: surrogate pairs are combined, but multi-code-point graphemes
such as combining accents or joined emoji are split into one wrapper per
code point).  For the default space delimiter, `chars.length` equals the
total code-point count across all tokens, and each wrapper holds exactly
one code point, one wrapper per code point of its word's text. -/
theorem chars_per_codepoint (text : List Char) (cn : ClassNames) (inline : Bool)
    (tops : Nat → Int) :
    ((splitter text [' '] cn inline tops).elements.chars.length =
      ((jsSplit [' '] text).map List.length).sum) ∧
    (∀ ws ∈ (splitter text [' '] cn inline tops).elements.words,
      ws.chars.length = (wordText ws).length ∧
        ∀ c ∈ ws.chars, c.text.length = 1) := by
  constructor
  · rw [splitter_chars]
    exact buildLoop_chars_space _ rfl _ 0 _
  · intro ws hws
    rw [splitter_words, buildLoop_words] at hws
    simp only [List.mem_map, List.mem_filter] at hws
    obtain ⟨p, ⟨hp, hpne⟩, rfl⟩ := hws
    have hchars : (mkWordSpan (cfgOf [' '] cn inline) (jsSplit [' '] text).length
        p.1 p.2).chars = mkCharSpans (cfgOf [' '] cn inline) 0 p.2 := by
      simp [mkWordSpan, cfgOf]
    constructor
    · rw [hchars, wordText_mkWordSpan, mkCharSpans_length]
    · intro c hc
      rw [hchars] at hc
      exact mkCharSpans_text_len _ _ _ c hc

theorem chars_per_codepoint_witness :
    mkWordSpan (cfgOf [' '] {} false) 2 0 ['a', 'b'] ∈
        (splitter ['a', 'b', ' ', 'c'] [' '] {} false (fun _ => 0)).elements.words ∧
      (mkWordSpan (cfgOf [' '] {} false) 2 0 ['a', 'b']).chars.length =
        (wordText (mkWordSpan (cfgOf [' '] {} false) 2 0 ['a', 'b'])).length ∧
      ∀ c ∈ (mkWordSpan (cfgOf [' '] {} false) 2 0 ['a', 'b']).chars,
        c.text.length = 1 :=
  ⟨by decide,
    (chars_per_codepoint ['a', 'b', ' ', 'c'] {} false (fun _ => 0)).2 _ (by decide)⟩

/-! ## C7 / C10: delimiter representation -/

theorem buildLoop_cons_nil (cfg : SplitterCfg) (n i : Nat) (w : List Char)
    (ws : List (List Char)) (hw : w = []) :
    buildLoop cfg n i (w :: ws) = buildLoop cfg n (i + 1) ws := by
  simp [buildLoop, hw]

theorem buildLoop_cons_ne (cfg : SplitterCfg) (n i : Nat) (w : List Char)
    (ws : List (List Char)) (hw : w ≠ []) :
    buildLoop cfg n i (w :: ws) =
      { fragment := GNode.word (mkWordSpan cfg n i w) ::
          ((if i < n - 1 ∧ cfg.splitBy = [' '] then [GNode.space] else []) ++
            (buildLoop cfg n (i + 1) ws).fragment)
        words := mkWordSpan cfg n i w :: (buildLoop cfg n (i + 1) ws).words
        chars := (mkWordSpan cfg n i w).chars ++ (buildLoop cfg n (i + 1) ws).chars
        spacers := (if i < n - 1 ∧ cfg.splitBy = [' '] then 1 else 0) +
          (buildLoop cfg n (i + 1) ws).spacers } := by
  simp [buildLoop, hw]

theorem fragment_adjacent_aux (cfg : SplitterCfg) (hsp : cfg.splitBy = [' '])
    (n : Nat) :
    ∀ (toks : List (List Char)) (k i : Nat), k + toks.length = n →
      i + 1 < toks.length → toks.getD i [] ≠ [] → toks.getD (i + 1) [] ≠ [] →
      ∃ l r, (buildLoop cfg n k toks).fragment =
        l ++ [GNode.word (mkWordSpan cfg n (k + i) (toks.getD i [])), GNode.space,
              GNode.word (mkWordSpan cfg n (k + i + 1) (toks.getD (i + 1) []))] ++ r := by
  intro toks
  induction toks with
  | nil =>
    intro k i hn hlen hw hw'
    simp at hlen
  | cons w ws ih =>
    intro k i hn hlen hw hw'
    cases i with
    | zero =>
      cases ws with
      | nil => simp at hlen
      | cons w' B =>
        have hw0 : w ≠ [] := by simpa using hw
        have hw1 : w' ≠ [] := by simpa using hw'
        have hk : k < n - 1 := by
          simp only [List.length_cons] at hn
          omega
        have hk1 : k + 1 ≤ n - 1 := by
          simp only [List.length_cons] at hn
          omega
        rw [buildLoop_cons_ne cfg n k w (w' :: B) hw0,
          buildLoop_cons_ne cfg n (k + 1) w' B hw1]
        refine ⟨[], (if k + 1 < n - 1 ∧ cfg.splitBy = [' '] then [GNode.space] else []) ++
          (buildLoop cfg n (k + 1 + 1) B).fragment, ?_⟩
        simp [hk, hsp]
    | succ j =>
      have hlen' : j + 1 < ws.length := by
        simp only [List.length_cons] at hlen
        omega
      have hws : ws.getD j [] ≠ [] := by
        rw [show (w :: ws).getD (j + 1) [] = ws.getD j [] from rfl] at hw
        exact hw
      have hws' : ws.getD (j + 1) [] ≠ [] := by
        rw [show (w :: ws).getD (j + 1 + 1) [] = ws.getD (j + 1) [] from rfl] at hw'
        exact hw'
      obtain ⟨l, r, hfrag⟩ := ih (k + 1) j
        (by simp only [List.length_cons] at hn; omega) hlen' hws hws'
      have hidx : k + 1 + j = k + (j + 1) := by omega
      rw [hidx] at hfrag
      by_cases hwe : w = []
      · refine ⟨l, r, ?_⟩
        rw [buildLoop_cons_nil cfg n k w ws hwe, hfrag]
        rfl
      · refine ⟨GNode.word (mkWordSpan cfg n k w) ::
          ((if k < n - 1 ∧ cfg.splitBy = [' '] then [GNode.space] else []) ++ l), r, ?_⟩
        rw [buildLoop_cons_ne cfg n k w ws hwe]
        simp only [hfrag]
        simp [List.append_assoc]

theorem buildLoop_no_space (cfg : SplitterCfg) (hns : cfg.splitBy ≠ [' ']) (n : Nat) :
    ∀ (i : Nat) (toks : List (List Char)),
      GNode.space ∉ (buildLoop cfg n i toks).fragment := by
  intro i toks
  induction toks generalizing i with
  | nil => simp [buildLoop]
  | cons w ws ih =>
    by_cases hw : w = []
    · rw [buildLoop_cons_nil cfg n i w ws hw]
      exact ih (i + 1)
    · rw [buildLoop_cons_ne cfg n i w ws hw]
      simp only [if_neg (by simp [hns] : ¬(i < n - 1 ∧ cfg.splitBy = [' ']))]
      simp only [List.nil_append, List.mem_cons]
      rintro (h | h)
      · exact GNode.noConfusion h
      · exact ih (i + 1) h

theorem words_trailing_delim (cfg : SplitterCfg) (hns : cfg.splitBy ≠ [' '])
    (n : Nat) (i : Nat) (toks : List (List Char)) :
    ∀ ws ∈ (buildLoop cfg n i toks).words,
      (ws.index < n - 1 ↔ ws.chars.getLast? = some (delimiterSpan cfg)) := by
  intro ws hws
  rw [buildLoop_words] at hws
  simp only [List.mem_map, List.mem_filter] at hws
  obtain ⟨p, ⟨hp, hpne⟩, rfl⟩ := hws
  have hidx : (mkWordSpan cfg n p.1 p.2).index = p.1 := rfl
  rw [hidx]
  by_cases hlt : p.1 < n - 1
  · have hchars : (mkWordSpan cfg n p.1 p.2).chars =
        mkCharSpans cfg 0 p.2 ++ [delimiterSpan cfg] := by
      simp [mkWordSpan, hlt, hns]
    rw [hchars]
    simp [hlt, List.getLast?_concat]
  · have hchars : (mkWordSpan cfg n p.1 p.2).chars = mkCharSpans cfg 0 p.2 := by
      simp [mkWordSpan, hlt]
    rw [hchars]
    simp only [hlt, false_iff]
    intro hlast
    have hmem := List.mem_of_mem_getLast? hlast
    have hsome := mkCharSpans_index_isSome cfg 0 p.2 _ hmem
    rw [delimiterSpan_index] at hsome
    simp at hsome

/-- Claim C7: between two adjacent non-empty word tokens, a single plain
space delimiter is represented as a plain `" "` text node appended as a
sibling between the two word wrappers in the pass-1 fragment (not a
wrapper element), while any other delimiter string is represented as a
character-level wrapper appended as the trailing child of the preceding
word wrapper, carrying the character class name with the `-delimiter`
variant suffix and no index attribute — and in that case no plain-space
text node appears anywhere in the fragment. -/
theorem delimiter_representation (text splitBy : List Char) (cn : ClassNames)
    (inline : Bool) (tops : Nat → Int) (i : Nat)
    (hlen : i + 1 < (jsSplit splitBy text).length)
    (hw : (jsSplit splitBy text).getD i [] ≠ [])
    (hw' : (jsSplit splitBy text).getD (i + 1) [] ≠ []) :
    (splitBy = [' '] → ∃ l r,
      (splitter text splitBy cn inline tops).pass1Children =
        l ++ [GNode.word (mkWordSpan (cfgOf splitBy cn inline)
                (jsSplit splitBy text).length i ((jsSplit splitBy text).getD i [])),
              GNode.space,
              GNode.word (mkWordSpan (cfgOf splitBy cn inline)
                (jsSplit splitBy text).length (i + 1)
                ((jsSplit splitBy text).getD (i + 1) []))] ++ r) ∧
    (splitBy ≠ [' '] →
      (∀ ws ∈ (splitter text splitBy cn inline tops).elements.words, ws.index = i →
        ws.chars.getLast? = some (delimiterSpan (cfgOf splitBy cn inline))) ∧
      (delimiterSpan (cfgOf splitBy cn inline)).className =
        (cfgOf splitBy cn inline).charClass ++ "-delimiter" ∧
      (delimiterSpan (cfgOf splitBy cn inline)).index = none ∧
      (delimiterSpan (cfgOf splitBy cn inline)).text = splitBy ∧
      GNode.space ∉ (splitter text splitBy cn inline tops).pass1Children) := by
  constructor
  · intro hsp
    have h := fragment_adjacent_aux (cfgOf splitBy cn inline) (by simp [cfgOf, hsp])
      (jsSplit splitBy text).length (jsSplit splitBy text) 0 i (by simp) hlen hw hw'
    simpa using h
  · intro hns
    have hns' : (cfgOf splitBy cn inline).splitBy ≠ [' '] := by simpa [cfgOf] using hns
    refine ⟨?_, ?_, rfl, rfl, ?_⟩
    · intro ws hws hidx
      have h := words_trailing_delim (cfgOf splitBy cn inline) hns'
        (jsSplit splitBy text).length 0 (jsSplit splitBy text) ws hws
      exact h.mp (by rw [hidx]; omega)
    · unfold delimiterSpan createSpan
      have hne : (cfgOf splitBy cn inline).charClass ++ "-delimiter" ≠ "" := by
        intro h
        have h2 : ((cfgOf splitBy cn inline).charClass ++ "-delimiter").length =
            ("" : String).length := by rw [h]
        rw [String.length_append] at h2
        have h3 : ("-delimiter" : String).length = 10 := rfl
        have h4 : ("" : String).length = 0 := rfl
        omega
      simp [hne]
    · exact buildLoop_no_space (cfgOf splitBy cn inline) hns'
        (jsSplit splitBy text).length 0 (jsSplit splitBy text)

theorem delimiter_representation_witness :
    (0 + 1 < (jsSplit [' '] ['a', ' ', 'b']).length ∧
        (jsSplit [' '] ['a', ' ', 'b']).getD 0 [] ≠ [] ∧
        (jsSplit [' '] ['a', ' ', 'b']).getD 1 [] ≠ []) ∧
      ∃ l r, (splitter ['a', ' ', 'b'] [' '] {} false (fun _ => 0)).pass1Children =
        l ++ [GNode.word (mkWordSpan (cfgOf [' '] {} false)
                (jsSplit [' '] ['a', ' ', 'b']).length 0
                ((jsSplit [' '] ['a', ' ', 'b']).getD 0 [])),
              GNode.space,
              GNode.word (mkWordSpan (cfgOf [' '] {} false)
                (jsSplit [' '] ['a', ' ', 'b']).length 1
                ((jsSplit [' '] ['a', ' ', 'b']).getD 1 []))] ++ r :=
  ⟨⟨by decide, by decide, by decide⟩,
    (delimiter_representation ['a', ' ', 'b'] [' '] {} false (fun _ => 0) 0
      (by decide) (by decide) (by decide)).1 rfl⟩

/-! ## C9: class-name options -/

theorem mkCharSpans_className (cfg : SplitterCfg) :
    ∀ (ci : Nat) (w : List Char) (c : CharSpan), c ∈ mkCharSpans cfg ci w →
      c.className = (createSpan cfg.charClass none cfg.inline).className := by
  intro ci w
  induction w generalizing ci with
  | nil => intro c hc; simp [mkCharSpans] at hc
  | cons ch rest ih =>
    intro c hc
    simp only [mkCharSpans, List.mem_cons] at hc
    rcases hc with h | h
    · subst h; rfl
    · exact ih _ c h

theorem buildLoop_chars_mem (cfg : SplitterCfg) (n i : Nat)
    (toks : List (List Char)) (c : CharSpan)
    (hc : c ∈ (buildLoop cfg n i toks).chars) :
    ∃ ws ∈ (buildLoop cfg n i toks).words, c ∈ ws.chars := by
  rw [buildLoop_chars] at hc
  rw [List.mem_flatten] at hc
  obtain ⟨l, hl, hcl⟩ := hc
  rw [List.mem_map] at hl
  obtain ⟨ws, hws, rfl⟩ := hl
  exact ⟨ws, hws, hcl⟩

/-- Claim C9: the class-name options override the default class names
`split-word`, `split-char`, `split-line` on every created wrapper (word
wrappers carry the configured word class, line wrappers the line class,
character wrappers the char class or its `-delimiter` variant), and
`createSpan` honors an explicitly empty class-name string literally: the
wrapper's class stays empty instead of falling back to a default. -/
theorem class_name_overrides (text splitBy : List Char) (cn : ClassNames)
    (inline : Bool) (tops : Nat → Int) :
    (∀ ws ∈ (splitter text splitBy cn inline tops).elements.words,
      ws.className = (createSpan (cn.word.getD "split-word") none inline).className) ∧
    (∀ ls ∈ (splitter text splitBy cn inline tops).elements.lines,
      ls.className = (createSpan (cn.line.getD "split-line") none inline).className) ∧
    (∀ c ∈ (splitter text splitBy cn inline tops).elements.chars,
      c.className = (createSpan (cn.char.getD "split-char") none inline).className ∨
        c.className =
          (createSpan ((cn.char.getD "split-char") ++ "-delimiter") none inline).className) ∧
    (∀ s : String, s ≠ "" → (createSpan s none inline).className = s) ∧
    (createSpan "" none inline).className = "" := by
  refine ⟨?_, ?_, ?_, ?_, rfl⟩
  · intro ws hws
    rw [splitter_words, buildLoop_words] at hws
    simp only [List.mem_map, List.mem_filter] at hws
    obtain ⟨p, ⟨hp, hpne⟩, rfl⟩ := hws
    rfl
  · intro ls hls
    simp only [splitter, List.mem_map] at hls
    obtain ⟨g, hg, rfl⟩ := hls
    rfl
  · intro c hc
    rw [splitter_chars] at hc
    obtain ⟨ws, hws, hcws⟩ := buildLoop_chars_mem _ _ _ _ c hc
    rw [buildLoop_words] at hws
    simp only [List.mem_map, List.mem_filter] at hws
    obtain ⟨p, ⟨hp, hpne⟩, rfl⟩ := hws
    have hsplit : c ∈ mkCharSpans (cfgOf splitBy cn inline) 0 p.2 ∨
        c = delimiterSpan (cfgOf splitBy cn inline) := by
      revert hcws
      unfold mkWordSpan
      by_cases hcond : p.1 < (jsSplit splitBy text).length - 1 ∧
          (cfgOf splitBy cn inline).splitBy ≠ [' ']
      · simp only [if_pos hcond]
        intro hcws
        simp only [List.mem_append, List.mem_singleton] at hcws
        exact hcws
      · simp only [if_neg hcond]
        intro hcws
        exact Or.inl hcws
    rcases hsplit with h | h
    · exact Or.inl (mkCharSpans_className _ _ _ c h)
    · subst h
      exact Or.inr rfl
  · intro s hs
    simp [createSpan, hs]

theorem class_name_overrides_witness :
    mkWordSpan (cfgOf [' '] ⟨some "", none, some "x"⟩ false) 1 0 ['a'] ∈
        (splitter ['a'] [' '] ⟨some "", none, some "x"⟩ false
          (fun _ => 0)).elements.words ∧
      (mkWordSpan (cfgOf [' '] ⟨some "", none, some "x"⟩ false) 1 0 ['a']).className =
        (createSpan ((⟨some "", none, some "x"⟩ : ClassNames).word.getD "split-word")
          none false).className :=
  ⟨by decide,
    (class_name_overrides ['a'] [' '] ⟨some "", none, some "x"⟩ false (fun _ => 0)).1 _
      (by decide)⟩

/-! ## C10: delimiter wrappers in the chars sequence -/

theorem mkCharSpans_filter_none (cfg : SplitterCfg) (ci : Nat) (w : List Char) :
    (mkCharSpans cfg ci w).filter (fun c => c.index = none) = [] := by
  rw [List.filter_eq_nil_iff]
  intro c hc
  have hsome := mkCharSpans_index_isSome cfg ci w c hc
  simp only [decide_eq_true_eq]
  intro hnone
  rw [hnone] at hsome
  simp at hsome

theorem buildLoop_realchars_length (cfg : SplitterCfg) (n : Nat) :
    ∀ (i : Nat) (toks : List (List Char)),
      ((buildLoop cfg n i toks).chars.filter (fun c => c.index.isSome)).length =
        (toks.map List.length).sum := by
  intro i toks
  induction toks generalizing i with
  | nil => rfl
  | cons w ws ih =>
    by_cases hw : w = []
    · rw [buildLoop_cons_nil cfg n i w ws hw]
      simp [hw, ih]
    · rw [buildLoop_cons_ne cfg n i w ws hw]
      have hfw : (mkWordSpan cfg n i w).chars.filter (fun c => c.index.isSome) =
          mkCharSpans cfg 0 w := realChars_mkWordSpan cfg n i w
      simp only [List.filter_append, List.length_append, hfw, mkCharSpans_length,
        List.map_cons, List.sum_cons, ih]

theorem buildLoop_chars_total (cfg : SplitterCfg) (n : Nat) :
    ∀ (i : Nat) (toks : List (List Char)),
      (buildLoop cfg n i toks).chars.length =
        (toks.map List.length).sum +
          ((buildLoop cfg n i toks).chars.filter (fun c => c.index = none)).length := by
  intro i toks
  induction toks generalizing i with
  | nil => rfl
  | cons w ws ih =>
    by_cases hw : w = []
    · rw [buildLoop_cons_nil cfg n i w ws hw]
      simp [hw, ih]
    · have hrw : (buildLoop cfg n i (w :: ws)).chars =
          (mkWordSpan cfg n i w).chars ++ (buildLoop cfg n (i + 1) ws).chars := by
        rw [buildLoop_cons_ne cfg n i w ws hw]
      have hchars : (mkWordSpan cfg n i w).chars =
          if i < n - 1 ∧ cfg.splitBy ≠ [' '] then
            mkCharSpans cfg 0 w ++ [delimiterSpan cfg]
          else mkCharSpans cfg 0 w := by
        simp only [mkWordSpan]
      rw [hrw, hchars]
      by_cases hcond : i < n - 1 ∧ cfg.splitBy ≠ [' ']
      · rw [if_pos hcond, List.filter_append, List.filter_append,
          mkCharSpans_filter_none]
        have hdl : [delimiterSpan cfg].filter (fun c => c.index = none) =
            [delimiterSpan cfg] := by
          simp [delimiterSpan_index]
        rw [hdl]
        simp only [List.length_append, mkCharSpans_length, List.nil_append,
          List.length_cons, List.length_nil, List.map_cons, List.sum_cons, ih]
        omega
      · rw [if_neg hcond, List.filter_append, mkCharSpans_filter_none]
        simp only [List.length_append, mkCharSpans_length, List.nil_append,
          List.map_cons, List.sum_cons, ih]
        omega

/-- Claim C10: for a non-space delimiter, every injected delimiter wrapper
is appended to the returned chars sequence in document order (chars is
exactly the concatenation of the word wrappers' child lists, delimiter
wrappers in place); the indexed character wrappers account for exactly the
total character count across tokens, so `chars.length` equals that count
plus the number of delimiter wrappers; and a word wrapper gets a trailing
delimiter wrapper exactly when any token — an empty one included — follows
it in the split array, so a source ending in the delimiter still puts a
trailing delimiter wrapper inside the last word. -/
theorem delimiter_wrappers_in_chars (text splitBy : List Char) (cn : ClassNames)
    (inline : Bool) (tops : Nat → Int) (hns : splitBy ≠ [' ']) :
    ((splitter text splitBy cn inline tops).elements.chars =
      ((splitter text splitBy cn inline tops).elements.words.map
        (fun ws => ws.chars)).flatten) ∧
    (((splitter text splitBy cn inline tops).elements.chars.filter
        (fun c => c.index.isSome)).length =
      ((jsSplit splitBy text).map List.length).sum) ∧
    ((splitter text splitBy cn inline tops).elements.chars.length =
      ((jsSplit splitBy text).map List.length).sum +
        (((splitter text splitBy cn inline tops).elements.chars.filter
          (fun c => c.index = none)).length)) ∧
    (∀ ws ∈ (splitter text splitBy cn inline tops).elements.words,
      (ws.index < (jsSplit splitBy text).length - 1 ↔
        ws.chars.getLast? = some (delimiterSpan (cfgOf splitBy cn inline)))) := by
  refine ⟨?_, ?_, ?_, ?_⟩
  · rw [splitter_chars, splitter_words]
    exact buildLoop_chars _ _ 0 _
  · rw [splitter_chars]
    exact buildLoop_realchars_length _ _ 0 _
  · rw [splitter_chars]
    exact buildLoop_chars_total _ _ 0 _
  · intro ws hws
    rw [splitter_words] at hws
    exact words_trailing_delim (cfgOf splitBy cn inline) (by simpa [cfgOf] using hns)
      (jsSplit splitBy text).length 0 (jsSplit splitBy text) ws hws

theorem delimiter_wrappers_in_chars_witness :
    (([','] : List Char) ≠ [' ']) ∧
      (splitter ['a', ',', 'b', ','] [','] {} false (fun _ => 0)).elements.chars.length =
        ((jsSplit [','] ['a', ',', 'b', ',']).map List.length).sum +
          (((splitter ['a', ',', 'b', ','] [','] {} false
              (fun _ => 0)).elements.chars.filter
            (fun c => c.index = none)).length) :=
  ⟨by decide,
    (delimiter_wrappers_in_chars ['a', ',', 'b', ','] [','] {} false (fun _ => 0)
      (by decide)).2.2.1⟩

end SplitText
